import Mathlib

/-!
# Verification of the Massa execution sandbox and address model

Shallow embedding of the code under `massa-execution-worker/src/interface_impl.rs`
and `massa-models/src/address*` together with the pieces of the execution
context that the spec describes (the `ExecutionContext` implementation itself
is not part of the visible sources; the definitions concerned carry a
`Modelled from the spec:` note).

Bytes are modelled as `Nat` values, with validity (`< 256`) carried as
hypotheses where it matters.  Strings are modelled as `List Char`.
-/

set_option maxRecDepth 10000

deriving instance DecidableEq for Except

/-! ## Positional base conversion (used by the base58 model) -/

/-- Little-endian digit list of `n` in base `b`; `fuel` bounds the recursion
depth (any `fuel ≥ n` is exact).  Produces no trailing zero digit. -/
def natToBaseLE (b : Nat) : Nat → Nat → List Nat
  | 0, _ => []
  | fuel + 1, n => if n = 0 then [] else n % b :: natToBaseLE b fuel (n / b)

/-- Value of a little-endian digit list in base `b`. -/
def ofBaseLE (b : Nat) : List Nat → Nat
  | [] => 0
  | d :: rest => d + b * ofBaseLE b rest

theorem natToBaseLE_zero (b fuel : Nat) : natToBaseLE b fuel 0 = [] := by
  cases fuel <;> simp [natToBaseLE]

theorem natToBaseLE_eq_nil_iff (b : Nat) :
    ∀ fuel n, n ≤ fuel → (natToBaseLE b fuel n = [] ↔ n = 0) := by
  intro fuel n hn
  constructor
  · intro h
    cases fuel with
    | zero => omega
    | succ f =>
      by_contra hne
      simp [natToBaseLE, hne] at h
  · intro h; subst h; exact natToBaseLE_zero b fuel

theorem ofBase_natToBase (b : Nat) (hb : 2 ≤ b) :
    ∀ fuel n, n ≤ fuel → ofBaseLE b (natToBaseLE b fuel n) = n := by
  intro fuel
  induction fuel with
  | zero =>
    intro n hn
    have h0 : n = 0 := by omega
    subst h0
    simp [natToBaseLE, ofBaseLE]
  | succ f ih =>
    intro n hn
    by_cases h0 : n = 0
    · subst h0; simp [natToBaseLE, ofBaseLE]
    · have hdiv : n / b < n := Nat.div_lt_self (Nat.pos_of_ne_zero h0) (by omega)
      have hle : n / b ≤ f := by omega
      simp only [natToBaseLE, h0, if_false, ofBaseLE]
      rw [ih (n / b) hle]
      exact Nat.mod_add_div n b

theorem natToBaseLE_lt (b : Nat) (hb : 0 < b) :
    ∀ fuel n d, d ∈ natToBaseLE b fuel n → d < b := by
  intro fuel
  induction fuel with
  | zero => intro n d h; simp [natToBaseLE] at h
  | succ f ih =>
    intro n d h
    by_cases h0 : n = 0
    · subst h0; simp [natToBaseLE] at h
    · simp only [natToBaseLE, h0, if_false, List.mem_cons] at h
      rcases h with h | h
      · subst h; exact Nat.mod_lt _ hb
      · exact ih _ _ h

theorem natToBaseLE_getLast?_pos (b : Nat) (hb : 2 ≤ b) :
    ∀ fuel n d, n ≤ fuel → (natToBaseLE b fuel n).getLast? = some d → 0 < d := by
  intro fuel
  induction fuel with
  | zero => intro n d hn h; simp [natToBaseLE] at h
  | succ f ih =>
    intro n d hn h
    by_cases h0 : n = 0
    · subst h0; simp [natToBaseLE] at h
    · have hle : n / b ≤ f := by
        have : n / b < n := Nat.div_lt_self (Nat.pos_of_ne_zero h0) (by omega)
        omega
      simp only [natToBaseLE, h0, if_false] at h
      rcases hrec : natToBaseLE b f (n / b) with _ | ⟨x, xs⟩
      · rw [hrec] at h
        simp at h
        have hdz : n / b = 0 := (natToBaseLE_eq_nil_iff b f (n / b) hle).mp hrec
        have hnb : n < b := by
          by_contra hge
          have : 1 ≤ n / b := (Nat.one_le_div_iff (by omega)).mpr (by omega)
          omega
        have hmod : n % b = n := Nat.mod_eq_of_lt hnb
        omega
      · rw [hrec, List.getLast?_cons_cons, ← hrec] at h
        exact ih (n / b) d hle h

theorem ofBaseLE_all_zero (b : Nat) (hb : 0 < b) :
    ∀ l, ofBaseLE b l = 0 → ∀ d ∈ l, d = 0 := by
  intro l
  induction l with
  | nil => intro _ d h; simp at h
  | cons x rest ih =>
    intro h d hd
    simp only [ofBaseLE] at h
    have hx : x = 0 := by omega
    have hbm : b * ofBaseLE b rest = 0 := by omega
    have hrest : ofBaseLE b rest = 0 := by
      rcases Nat.mul_eq_zero.mp hbm with h' | h'
      · omega
      · exact h'
    rcases List.mem_cons.mp hd with h' | h'
    · omega
    · exact ih hrest d h'

theorem ofBaseLE_replicate_zero (b z : Nat) : ofBaseLE b (List.replicate z 0) = 0 := by
  induction z with
  | zero => rfl
  | succ n ih => simp [List.replicate, ofBaseLE, ih]

theorem ofBaseLE_append_zeros (b z : Nat) (l : List Nat) :
    ofBaseLE b (l ++ List.replicate z 0) = ofBaseLE b l := by
  induction l with
  | nil => simpa using ofBaseLE_replicate_zero b z
  | cons x rest ih => simp [ofBaseLE, ih]

theorem ofBaseLE_pos (b : Nat) (hb : 0 < b) (l : List Nat) (hne : l ≠ [])
    (hlast : ∀ d, l.getLast? = some d → 0 < d) : 0 < ofBaseLE b l := by
  by_contra h
  have h0 : ofBaseLE b l = 0 := by omega
  have hall := ofBaseLE_all_zero b hb l h0
  have hmem : l.getLast hne ∈ l := List.getLast_mem hne
  have hz := hall _ hmem
  have hl := hlast (l.getLast hne) (List.getLast?_eq_getLast _ hne)
  omega

theorem natToBase_ofBase (b : Nat) (hb : 2 ≤ b) :
    ∀ l fuel, (∀ d ∈ l, d < b) → (∀ d, l.getLast? = some d → 0 < d) →
      ofBaseLE b l ≤ fuel → natToBaseLE b fuel (ofBaseLE b l) = l := by
  intro l
  induction l with
  | nil => intro fuel _ _ _; simpa [ofBaseLE] using natToBaseLE_zero b fuel
  | cons d rest ih =>
    intro fuel hlt hlast hfuel
    have hd : d < b := hlt d (by simp)
    have hv : ofBaseLE b (d :: rest) = d + b * ofBaseLE b rest := rfl
    have hlast' : ∀ x, rest.getLast? = some x → 0 < x := by
      intro x hx
      cases rest with
      | nil => simp at hx
      | cons r rs => exact hlast x (by rw [List.getLast?_cons_cons]; exact hx)
    have hvpos : 0 < d + b * ofBaseLE b rest := by
      cases rest with
      | nil =>
        have : 0 < d := hlast d (by simp)
        simp only [ofBaseLE]
        omega
      | cons r rs =>
        have hpos := ofBaseLE_pos b (by omega) (r :: rs) (by simp) hlast'
        have : 0 < b * ofBaseLE b (r :: rs) := Nat.mul_pos (by omega) hpos
        omega
    cases fuel with
    | zero => rw [hv] at hfuel; omega
    | succ f =>
      have h1 : (d + b * ofBaseLE b rest) % b = d := by
        rw [Nat.add_mul_mod_self_left, Nat.mod_eq_of_lt hd]
      have h2 : (d + b * ofBaseLE b rest) / b = ofBaseLE b rest := by
        rw [Nat.add_mul_div_left _ _ (show 0 < b by omega), Nat.div_eq_of_lt hd, Nat.zero_add]
      have hrle : ofBaseLE b rest ≤ f := by
        rw [hv] at hfuel
        by_cases hm : ofBaseLE b rest = 0
        · omega
        · have h58 : ofBaseLE b rest < b * ofBaseLE b rest := by
            calc ofBaseLE b rest = 1 * ofBaseLE b rest := by ring
            _ < b * ofBaseLE b rest :=
              Nat.mul_lt_mul_of_lt_of_le (by omega) (le_refl _) (Nat.pos_of_ne_zero hm)
          omega
      have hstep : natToBaseLE b (f + 1) (ofBaseLE b (d :: rest)) =
          (d + b * ofBaseLE b rest) % b :: natToBaseLE b f ((d + b * ofBaseLE b rest) / b) := by
        simp only [natToBaseLE, hv]
        rw [if_neg (by omega)]
      rw [hstep, h1, h2, ih f (fun x hx => hlt x (by simp [hx])) hlast' hrle]

/-! ## Leading-zero bookkeeping (base58 encodes each leading zero byte as '1') -/

/-- Number of leading `0` entries of a digit list. -/
def countLeadingZeros : List Nat → Nat
  | [] => 0
  | d :: rest => if d = 0 then countLeadingZeros rest + 1 else 0

theorem countLeadingZeros_replicate_append (z : Nat) (l : List Nat) :
    countLeadingZeros (List.replicate z 0 ++ l) = z + countLeadingZeros l := by
  induction z with
  | zero => simp
  | succ n ih => simp [List.replicate, countLeadingZeros, ih]; omega

theorem countLeadingZeros_head_ne (l : List Nat) (d : Nat)
    (h : l.head? = some d) (hd : d ≠ 0) : countLeadingZeros l = 0 := by
  cases l with
  | nil => simp at h
  | cons x xs =>
    simp at h
    subst h
    simp [countLeadingZeros, hd]

theorem countLeadingZeros_decomp (l : List Nat) :
    l = List.replicate (countLeadingZeros l) 0 ++ l.drop (countLeadingZeros l) := by
  induction l with
  | nil => rfl
  | cons x xs ih =>
    by_cases hx : x = 0
    · subst hx
      simp only [countLeadingZeros, if_pos rfl]
      calc (0 : Nat) :: xs
          = 0 :: (List.replicate (countLeadingZeros xs) 0 ++ xs.drop (countLeadingZeros xs)) := by
            rw [← ih]
        _ = List.replicate (countLeadingZeros xs + 1) 0 ++
              (0 :: xs).drop (countLeadingZeros xs + 1) := by
            simp [List.replicate_succ]
    · simp [countLeadingZeros, hx]

theorem countLeadingZeros_drop_head (l : List Nat) (d : Nat)
    (h : (l.drop (countLeadingZeros l)).head? = some d) : d ≠ 0 := by
  induction l with
  | nil => simp at h
  | cons x xs ih =>
    by_cases hx : x = 0
    · subst hx
      simp only [countLeadingZeros, if_pos rfl, List.drop_succ_cons] at h
      exact ih h
    · simp [countLeadingZeros, hx] at h
      omega

theorem countLeadingZeros_all_zero (l : List Nat) (h : ∀ d ∈ l, d = 0) :
    countLeadingZeros l = l.length := by
  induction l with
  | nil => rfl
  | cons x xs ih =>
    have hx : x = 0 := h x (by simp)
    subst hx
    simp [countLeadingZeros, ih (fun d hd => h d (by simp [hd]))]

/-! ## Base58 alphabet (the `bs58` crate's Bitcoin alphabet) -/

/-- The 58-character alphabet used by the `bs58` crate. -/
def b58Alphabet : List Char :=
  ['1', '2', '3', '4', '5', '6', '7', '8', '9',
   'A', 'B', 'C', 'D', 'E', 'F', 'G', 'H', 'J', 'K', 'L', 'M', 'N',
   'P', 'Q', 'R', 'S', 'T', 'U', 'V', 'W', 'X', 'Y', 'Z',
   'a', 'b', 'c', 'd', 'e', 'f', 'g', 'h', 'i', 'j', 'k', 'm', 'n',
   'o', 'p', 'q', 'r', 's', 't', 'u', 'v', 'w', 'x', 'y', 'z']

/-- Character for base58 digit `d`. -/
def b58DigitChar (d : Nat) : Char := b58Alphabet.getD d '1'

def b58CharValAux : List Char → Char → Nat → Option Nat
  | [], _, _ => none
  | a :: rest, c, i => if a = c then some i else b58CharValAux rest c (i + 1)

/-- Base58 digit value of a character (`none` for characters outside the alphabet). -/
def b58CharVal (c : Char) : Option Nat := b58CharValAux b58Alphabet c 0

theorem b58CharVal_digitChar : ∀ d, d < 58 → b58CharVal (b58DigitChar d) = some d := by
  decide

/-- Digit values of a character list; fails on any character outside the alphabet. -/
def b58DecodeChars : List Char → Option (List Nat)
  | [] => some []
  | c :: cs =>
    match b58CharVal c, b58DecodeChars cs with
    | some d, some ds => some (d :: ds)
    | _, _ => none

theorem b58DecodeChars_map (ds : List Nat) (h : ∀ d ∈ ds, d < 58) :
    b58DecodeChars (ds.map b58DigitChar) = some ds := by
  induction ds with
  | nil => rfl
  | cons d rest ih =>
    simp only [List.map_cons, b58DecodeChars]
    rw [b58CharVal_digitChar d (h d (by simp)), ih (fun x hx => h x (by simp [hx]))]

/-! ## Base58 encoding and decoding of byte strings

Models the `bs58` crate used by `massa-models`: leading zero bytes become
leading `'1'` characters, the remaining bytes are treated as a big-endian
number re-expressed in base 58. -/

/-- Big-endian digit list (base58) of the byte string `v`, leading zero bytes
kept as zero digits. -/
def b58EncodeDigits (v : List Nat) : List Nat :=
  List.replicate (countLeadingZeros v) 0 ++
    (natToBaseLE 58 (ofBaseLE 256 v.reverse) (ofBaseLE 256 v.reverse)).reverse

/-- Base58 encoding of a byte string. -/
def b58Encode (v : List Nat) : List Char := (b58EncodeDigits v).map b58DigitChar

/-- Base58 decoding of a character string back to a byte string; fails on a
character outside the alphabet. -/
def b58Decode (s : List Char) : Option (List Nat) :=
  match b58DecodeChars s with
  | none => none
  | some ds =>
    some (List.replicate (countLeadingZeros ds) 0 ++
      (natToBaseLE 256 (ofBaseLE 58 ds.reverse) (ofBaseLE 58 ds.reverse)).reverse)

theorem b58EncodeDigits_lt (v : List Nat) : ∀ d ∈ b58EncodeDigits v, d < 58 := by
  intro d hd
  rcases List.mem_append.mp hd with h | h
  · have := List.eq_of_mem_replicate h
    omega
  · exact natToBaseLE_lt 58 (by omega) _ _ d (List.mem_reverse.mp h)

theorem b58_roundtrip (v : List Nat) (hv : ∀ x ∈ v, x < 256) :
    b58Decode (b58Encode v) = some v := by
  have hchars := b58DecodeChars_map (b58EncodeDigits v) (b58EncodeDigits_lt v)
  simp only [b58Encode, b58Decode, hchars]
  set z := countLeadingZeros v with hz
  set w := v.drop z with hw
  have hdecomp : v = List.replicate z 0 ++ w := countLeadingZeros_decomp v
  set n := ofBaseLE 256 v.reverse with hn
  have hrevzeros : (List.replicate z (0 : Nat)).reverse = List.replicate z 0 := by
    simp
  have hnw : n = ofBaseLE 256 w.reverse := by
    rw [hn]
    conv_lhs => rw [hdecomp]
    rw [List.reverse_append, hrevzeros, ofBaseLE_append_zeros]
  cases hwcase : w with
  | nil =>
    have hn0 : n = 0 := by rw [hnw, hwcase]; rfl
    have hvz : ∀ d ∈ v, d = 0 := by
      intro d hd
      exact ofBaseLE_all_zero 256 (by omega) v.reverse
        (by rw [← hn, hn0]) d (List.mem_reverse.mpr hd)
    have hzlen : z = v.length := by rw [hz]; exact countLeadingZeros_all_zero v hvz
    have hvrep : v = List.replicate v.length 0 := List.eq_replicate_of_mem hvz
    have hdig : b58EncodeDigits v = List.replicate z 0 := by
      simp only [b58EncodeDigits, ← hz, ← hn, hn0, natToBaseLE_zero]
      simp
    rw [hdig]
    have hclz : countLeadingZeros (List.replicate z (0 : Nat)) = z := by
      simpa using countLeadingZeros_replicate_append z []
    rw [hclz, hrevzeros, ofBaseLE_replicate_zero, natToBaseLE_zero]
    simp only [List.reverse_nil, List.append_nil]
    rw [hzlen, ← hvrep]
  | cons h0 t0 =>
    have hhead : w.head? = some h0 := by rw [hwcase]; rfl
    have hh0 : h0 ≠ 0 := countLeadingZeros_drop_head v h0 (by rw [← hw, ← hz] at *; exact hhead)
    have hwlast : ∀ d, w.reverse.getLast? = some d → 0 < d := by
      intro d hd
      rw [List.getLast?_reverse, hhead] at hd
      have : h0 = d := by injection hd
      omega
    have hnpos : 0 < n := by
      rw [hnw]
      exact ofBaseLE_pos 256 (by omega) w.reverse
        (by rw [hwcase]; simp) hwlast
    set digits := natToBaseLE 58 n n with hdigits
    have hdigne : digits ≠ [] := by
      rw [hdigits]
      intro hc
      have := (natToBaseLE_eq_nil_iff 58 n n (le_refl n)).mp hc
      omega
    have hdiglast : ∀ d, digits.getLast? = some d → 0 < d := fun d hd =>
      natToBaseLE_getLast?_pos 58 (by omega) n n d (le_refl n) hd
    -- the reversed digit list starts with a nonzero digit
    have hdigrevhead : ∀ d, digits.reverse.head? = some d → d ≠ 0 := by
      intro d hd
      rw [List.head?_reverse] at hd
      have := hdiglast d hd
      omega
    have hcrev : countLeadingZeros digits.reverse = 0 := by
      rcases hrev : digits.reverse with _ | ⟨rd, rds⟩
      · exact absurd (by simpa using congrArg List.reverse hrev) hdigne
      · have hhd : digits.reverse.head? = some rd := by rw [hrev]; rfl
        have hrd : rd ≠ 0 := hdigrevhead rd hhd
        simp [countLeadingZeros, hrd]
    have hclz : countLeadingZeros (b58EncodeDigits v) = z := by
      simp only [b58EncodeDigits, ← hz, ← hn, ← hdigits]
      rw [countLeadingZeros_replicate_append, hcrev]
      omega
    have hval : ofBaseLE 58 (b58EncodeDigits v).reverse = n := by
      simp only [b58EncodeDigits, ← hz, ← hn, ← hdigits]
      rw [List.reverse_append, hrevzeros, List.reverse_reverse,
        ofBaseLE_append_zeros]
      exact ofBase_natToBase 58 (by omega) n n (le_refl n)
    rw [hclz, hval]
    have hwbytes : ∀ d ∈ w.reverse, d < 256 := by
      intro d hd
      refine hv d ?_
      have := List.mem_reverse.mp hd
      rw [hw] at this
      exact List.mem_of_mem_drop this
    have hback : natToBaseLE 256 n n = w.reverse := by
      have hx := natToBase_ofBase 256 (by omega) w.reverse n hwbytes hwlast (by rw [← hnw])
      rw [← hnw] at hx
      exact hx
    rw [hback, List.reverse_reverse]
    exact congrArg some hdecomp.symm

/-! ## SHA-256 (used by the base58-check checksum of the `bs58` crate)

Straightforward executable model of FIPS 180-4 over byte lists; 32-bit words
are `Nat` values reduced modulo `2 ^ 32`. -/

/-- Reduce to a 32-bit word. -/
def w32 (n : Nat) : Nat := n % 4294967296

/-- Right rotation of a 32-bit word. -/
def rotr32 (x n : Nat) : Nat := w32 ((x >>> n) + ((x % (2 ^ n)) <<< (32 - n)))

def shaCh (x y z : Nat) : Nat := (x &&& y) ^^^ ((x ^^^ 4294967295) &&& z)

def shaMaj (x y z : Nat) : Nat := (x &&& y) ^^^ (x &&& z) ^^^ (y &&& z)

def bsig0 (x : Nat) : Nat := rotr32 x 2 ^^^ rotr32 x 13 ^^^ rotr32 x 22

def bsig1 (x : Nat) : Nat := rotr32 x 6 ^^^ rotr32 x 11 ^^^ rotr32 x 25

def ssig0 (x : Nat) : Nat := rotr32 x 7 ^^^ rotr32 x 18 ^^^ (x >>> 3)

def ssig1 (x : Nat) : Nat := rotr32 x 17 ^^^ rotr32 x 19 ^^^ (x >>> 10)

/-- SHA-256 round constants (decimal). -/
def shaK : List Nat :=
  [1116352408, 1899447441, 3049323471, 3921009573, 961987163,
   1508970993, 2453635748, 2870763221, 3624381080, 310598401,
   607225278, 1426881987, 1925078388, 2162078206, 2614888103,
   3248222580, 3835390401, 4022224774, 264347078, 604807628,
   770255983, 1249150122, 1555081692, 1996064986, 2554220882,
   2821834349, 2952996808, 3210313671, 3336571891, 3584528711,
   113926993, 338241895, 666307205, 773529912, 1294757372,
   1396182291, 1695183700, 1986661051, 2177026350, 2456956037,
   2730485921, 2820302411, 3259730800, 3345764771, 3516065817,
   3600352804, 4094571909, 275423344, 430227734, 506948616,
   659060556, 883997877, 958139571, 1322822218, 1537002063,
   1747873779, 1955562222, 2024104815, 2227730452, 2361852424,
   2428436474, 2756734187, 3204031479, 3329325298]

/-- SHA-256 initial hash state (decimal). -/
def shaH0 : List Nat :=
  [1779033703, 3144134277, 1013904242, 2773480762, 1359893119,
   2600822924, 528734635, 1541459225]

/-- Big-endian 8-byte encoding of a length (in bits). -/
def lenBytesBE (n : Nat) : List Nat :=
  [n / 2 ^ 56 % 256, n / 2 ^ 48 % 256, n / 2 ^ 40 % 256, n / 2 ^ 32 % 256,
   n / 2 ^ 24 % 256, n / 2 ^ 16 % 256, n / 2 ^ 8 % 256, n % 256]

/-- SHA-256 message padding. -/
def sha256Pad (msg : List Nat) : List Nat :=
  msg ++ [128] ++ List.replicate ((119 - msg.length % 64) % 64) 0 ++ lenBytesBE (8 * msg.length)

/-- Pack bytes into big-endian 32-bit words (groups of 4). -/
def bytesToWordsBE : List Nat → List Nat
  | b0 :: b1 :: b2 :: b3 :: rest =>
    ((b0 % 256) * 16777216 + (b1 % 256) * 65536 + (b2 % 256) * 256 + b3 % 256) :: bytesToWordsBE rest
  | _ => []

/-- Split a word list into 16-word blocks; `fuel` bounds the recursion. -/
def chunk16 : Nat → List Nat → List (List Nat)
  | 0, _ => []
  | _ + 1, [] => []
  | fuel + 1, w :: ws => (w :: ws).take 16 :: chunk16 fuel ((w :: ws).drop 16)

/-- Next message-schedule word, from the most-recent-first accumulator. -/
def wNext (acc : List Nat) : Nat :=
  w32 (ssig1 (acc.getD 1 0) + acc.getD 6 0 + ssig0 (acc.getD 14 0) + acc.getD 15 0)

def extendW : Nat → List Nat → List Nat
  | 0, acc => acc
  | fuel + 1, acc => extendW fuel (wNext acc :: acc)

/-- The 64-word message schedule of one block. -/
def schedule (block : List Nat) : List Nat := (extendW 48 block.reverse).reverse

/-- The eight working registers of the compression function. -/
structure ShaRegs where
  a : Nat
  b : Nat
  c : Nat
  d : Nat
  e : Nat
  f : Nat
  g : Nat
  h : Nat

def shaRound (r : ShaRegs) (k w : Nat) : ShaRegs :=
  let t1 := w32 (r.h + bsig1 r.e + shaCh r.e r.f r.g + k + w)
  let t2 := w32 (bsig0 r.a + shaMaj r.a r.b r.c)
  { a := w32 (t1 + t2), b := r.a, c := r.b, d := r.c,
    e := w32 (r.d + t1), f := r.e, g := r.f, h := r.g }

def shaRounds : List (Nat × Nat) → ShaRegs → ShaRegs
  | [], r => r
  | (k, w) :: rest, r => shaRounds rest (shaRound r k w)

/-- One application of the compression function to an 8-word state. -/
def shaCompress (hs : List Nat) (block : List Nat) : List Nat :=
  let ws := schedule block
  let r0 : ShaRegs :=
    ⟨hs.getD 0 0, hs.getD 1 0, hs.getD 2 0, hs.getD 3 0,
     hs.getD 4 0, hs.getD 5 0, hs.getD 6 0, hs.getD 7 0⟩
  let r := shaRounds (shaK.zip ws) r0
  [w32 (hs.getD 0 0 + r.a), w32 (hs.getD 1 0 + r.b), w32 (hs.getD 2 0 + r.c),
   w32 (hs.getD 3 0 + r.d), w32 (hs.getD 4 0 + r.e), w32 (hs.getD 5 0 + r.f),
   w32 (hs.getD 6 0 + r.g), w32 (hs.getD 7 0 + r.h)]

def shaBlocks : List (List Nat) → List Nat → List Nat
  | [], hs => hs
  | b :: bs, hs => shaBlocks bs (shaCompress hs b)

/-- Big-endian bytes of one 32-bit word. -/
def wordBytesBE (w : Nat) : List Nat :=
  [w / 16777216 % 256, w / 65536 % 256, w / 256 % 256, w % 256]

/-- SHA-256 digest (32 bytes) of a byte list. -/
def sha256 (msg : List Nat) : List Nat :=
  let ws := bytesToWordsBE (sha256Pad msg)
  ((shaBlocks (chunk16 ws.length ws) shaH0).map wordBytesBE).flatten

theorem wordBytesBE_lt (w : Nat) : ∀ b ∈ wordBytesBE w, b < 256 := by
  intro b hb
  simp only [wordBytesBE, List.mem_cons, List.mem_singleton] at hb
  rcases hb with h | h | h | h | h <;> first
    | (subst h; exact Nat.mod_lt _ (by omega))
    | simp at h

theorem sha256_bytes_lt (msg : List Nat) : ∀ b ∈ sha256 msg, b < 256 := by
  intro b hb
  simp only [sha256, List.mem_flatten, List.mem_map] at hb
  obtain ⟨l, ⟨w, _, hw⟩, hbl⟩ := hb
  exact wordBytesBE_lt w b (hw ▸ hbl)

theorem shaBlocks_length (bs : List (List Nat)) :
    ∀ hs : List Nat, hs.length = 8 → (shaBlocks bs hs).length = 8 := by
  induction bs with
  | nil => intro hs h; simpa [shaBlocks] using h
  | cons b rest ih =>
    intro hs h
    simp only [shaBlocks]
    exact ih _ (by simp [shaCompress])

theorem sha256_length (msg : List Nat) : (sha256 msg).length = 32 := by
  simp only [sha256, List.length_flatten, List.map_map]
  have hlen := shaBlocks_length
    (chunk16 (bytesToWordsBE (sha256Pad msg)).length (bytesToWordsBE (sha256Pad msg)))
    shaH0 (by rfl)
  generalize hgen :
    shaBlocks (chunk16 (bytesToWordsBE (sha256Pad msg)).length (bytesToWordsBE (sha256Pad msg)))
      shaH0 = out at hlen ⊢
  have : ∀ l : List Nat, (l.map (List.length ∘ wordBytesBE)).sum = 4 * l.length := by
    intro l
    induction l with
    | nil => rfl
    | cons x xs ih => simp [ih, wordBytesBE]; omega
  rw [this out, hlen]

/-! ## Base58-check (payload followed by 4 bytes of double-SHA-256) -/

/-- The 4-byte checksum that base58-check appends. -/
def sha256d4 (v : List Nat) : List Nat := (sha256 (sha256 v)).take 4

theorem sha256d4_length (v : List Nat) : (sha256d4 v).length = 4 := by
  simp [sha256d4, sha256_length]

theorem sha256d4_bytes_lt (v : List Nat) : ∀ b ∈ sha256d4 v, b < 256 := by
  intro b hb
  exact sha256_bytes_lt _ b (List.mem_of_mem_take hb)

/-- Base58-check encoding, as done by `bs58 ... .with_check()`. -/
def b58CheckEncode (v : List Nat) : List Char := b58Encode (v ++ sha256d4 v)

/-- Base58-check decoding, as done by `bs58 ... .with_check(None)`:
decode, split off the last 4 bytes and verify them as the checksum. -/
def b58CheckDecode (s : List Char) : Option (List Nat) :=
  match b58Decode s with
  | none => none
  | some w =>
    if w.length < 4 then none
    else
      let payload := w.take (w.length - 4)
      if w.drop (w.length - 4) = sha256d4 payload then some payload else none

theorem b58Check_roundtrip (v : List Nat) (hv : ∀ x ∈ v, x < 256) :
    b58CheckDecode (b58CheckEncode v) = some v := by
  have hbytes : ∀ x ∈ v ++ sha256d4 v, x < 256 := by
    intro x hx
    rcases List.mem_append.mp hx with h | h
    · exact hv x h
    · exact sha256d4_bytes_lt v x h
  have hrt := b58_roundtrip (v ++ sha256d4 v) hbytes
  simp only [b58CheckEncode, b58CheckDecode, hrt]
  have hlen : (v ++ sha256d4 v).length = v.length + 4 := by
    simp [sha256d4_length]
  rw [if_neg (by omega)]
  have hl4 : (v ++ sha256d4 v).length - 4 = v.length := by omega
  rw [hl4, List.take_left, List.drop_left, if_pos rfl]

/-! ## LEB128 variable-length integers (`massa_serialization` U64 varints)

Modelled from the spec: the user-address payload is a version-prefixed hash;
the version prefix is the varint encoding used by `massa_serialization`
(not part of the visible sources). -/

def varIntEncodeAux : Nat → Nat → List Nat
  | 0, _ => []
  | fuel + 1, n => if n < 128 then [n] else (n % 128 + 128) :: varIntEncodeAux fuel (n / 128)

/-- LEB128 encoding of an unsigned integer. -/
def varIntEncode (n : Nat) : List Nat := varIntEncodeAux (n + 1) n

def readVarIntAux : List Nat → Nat → Nat → Option (Nat × List Nat)
  | [], _, _ => none
  | b :: rest, shift, acc =>
    if b < 128 then some (acc + b * 2 ^ shift, rest)
    else readVarIntAux rest (shift + 7) (acc + b % 128 * 2 ^ shift)

/-- LEB128 decoding: value plus remaining bytes, `none` on truncation. -/
def readVarInt (bytes : List Nat) : Option (Nat × List Nat) := readVarIntAux bytes 0 0

theorem readVarInt_zero_cons (rest : List Nat) : readVarInt (0 :: rest) = some (0, rest) := by
  simp [readVarInt, readVarIntAux]

/-! ## The Massa address model (`massa-models/src/address.rs`, `user_addr.rs`, `sc_addr.rs`) -/

/-- A slot, i.e. a (period, thread) coordinate (`massa_models::slot::Slot`). -/
structure Slot where
  period : Nat
  thread : Nat
deriving DecidableEq, Repr

/-- `massa-models/src/address/sc_addr.rs` `SCAddress { slot, idx, is_write }`. -/
structure SCAddress where
  slot : Slot
  idx : Nat
  isWrite : Bool
deriving DecidableEq, Repr

/-- `SCAddress::thread`: the thread of the creation slot. -/
def SCAddress.thread (s : SCAddress) : Nat := s.slot.thread

/-- `ModelsError` restricted to the variant used by address parsing. -/
inductive ModelsError
  | AddressParseError
deriving DecidableEq, Repr

/-- `user_addr.rs` `USER_ADDRESS_VERSION`. -/
def USER_ADDRESS_VERSION : Nat := 0

/-- `UserAddress::bs58_encode`: base58-check of the varint-encoded version
followed by the 32 hash bytes. -/
def userBs58Encode (u : List Nat) : List Char :=
  b58CheckEncode (varIntEncode USER_ADDRESS_VERSION ++ u)

/-- `UserAddress::from_str`: base58-check decode, read (and discard) the varint
version, require exactly 32 remaining bytes. -/
def userFromStr (s : List Char) : Except ModelsError (List Nat) :=
  match b58CheckDecode s with
  | none => .error .AddressParseError
  | some bytes =>
    match readVarInt bytes with
    | none => .error .AddressParseError
    | some (_, rest) =>
      if rest.length = 32 then .ok rest else .error .AddressParseError

/-- `HashedSCAddress::bs58_encode`: plain base58 of the stored bytes
(note: no checksum, unlike the user-address encoding). -/
def scBs58Encode (v : List Nat) : List Char := b58Encode v

/-- `HashedSCAddress::from_str`: plain base58 decode of the whole string. -/
def scFromStr (s : List Char) : Except ModelsError (List Nat) :=
  match b58Decode s with
  | none => .error .AddressParseError
  | some v => .ok v

/-- `massa_models::address::Address`: a user address (32-byte hash of a public
key) or a smart-contract address (the `HashedSCAddress` byte vector). -/
inductive Address
  | User (u : List Nat)
  | SC (v : List Nat)
deriving DecidableEq, Repr

/-- `impl Display for Address`: `'A'`, then `'U'` or `'S'`, then the
kind-specific base58 payload. -/
def Address.toChars : Address → List Char
  | .User u => 'A' :: 'U' :: userBs58Encode u
  | .SC v => 'A' :: 'S' :: scBs58Encode v

/-- `impl FromStr for Address`: expect `'A'`, then dispatch on `'U'`/`'S'`,
rejecting any other shape with `AddressParseError`. -/
def Address.fromChars : List Char → Except ModelsError Address
  | c :: pref :: data =>
    if c = 'A' then
      if pref = 'U' then (userFromStr data).map .User
      else if pref = 'S' then (scFromStr data).map .SC
      else .error .AddressParseError
    else .error .AddressParseError
  | _ => .error .AddressParseError

/-- Byte-validity of an address value: a user address holds exactly 32 bytes,
an SC address holds arbitrarily many bytes; all byte values are below 256. -/
def Address.wellFormedB : Address → Bool
  | .User u => u.length = 32 && u.all (· < 256)
  | .SC v => v.all (· < 256)

theorem userFromStr_roundtrip (u : List Nat) (hlen : u.length = 32)
    (hb : ∀ x ∈ u, x < 256) : userFromStr (userBs58Encode u) = .ok u := by
  have henc : varIntEncode USER_ADDRESS_VERSION ++ u = 0 :: u := by rfl
  have hrt := b58Check_roundtrip (0 :: u) (by
    intro x hx
    rcases List.mem_cons.mp hx with h | h
    · omega
    · exact hb x h)
  simp only [userFromStr, userBs58Encode, henc, hrt, readVarInt_zero_cons, hlen]
  simp

theorem scFromStr_roundtrip (v : List Nat) (hb : ∀ x ∈ v, x < 256) :
    scFromStr (scBs58Encode v) = .ok v := by
  simp only [scFromStr, scBs58Encode, b58_roundtrip v hb]

theorem fromChars_AU (data : List Char) :
    Address.fromChars ('A' :: 'U' :: data) = (userFromStr data).map .User := by
  simp [Address.fromChars]

theorem fromChars_AS (data : List Char) :
    Address.fromChars ('A' :: 'S' :: data) = (scFromStr data).map .SC := by
  simp [Address.fromChars]

/-- Parsing the formatted string of a well-formed address returns the address. -/
theorem address_parse_format (a : Address) (h : a.wellFormedB = true) :
    Address.fromChars a.toChars = .ok a := by
  cases a with
  | User u =>
    simp only [Address.wellFormedB, Bool.and_eq_true, decide_eq_true_eq, List.all_eq_true] at h
    simp only [Address.toChars]
    rw [fromChars_AU, userFromStr_roundtrip u h.1 (fun x hx => by simpa using h.2 x hx)]
    rfl
  | SC v =>
    simp only [Address.wellFormedB, List.all_eq_true, decide_eq_true_eq] at h
    simp only [Address.toChars]
    rw [fromChars_AS, scFromStr_roundtrip v (fun x hx => by simpa using h x hx)]
    rfl

/-! ### Thread derivation (`Address::get_thread`) -/

/-- Number of trailing zero bits of `n`, up to `fuel` bits. -/
def tzAux : Nat → Nat → Nat
  | 0, _ => 0
  | fuel + 1, n => if n % 2 = 1 then 0 else tzAux fuel (n / 2) + 1

/-- `u8::trailing_zeros`: 8 for 0, otherwise the number of trailing zero bits. -/
def u8TrailingZeros (n : Nat) : Nat :=
  if n % 256 = 0 then 8 else tzAux 8 (n % 256)

/-- `UserAddress::get_thread`: the first hash byte shifted right by
`8 - thread_count.trailing_zeros()`; `checked_shr` returns `None` (mapped to 0
by `unwrap_or`) when the shift is not below 8. -/
def userGetThread (u : List Nat) (thread_count : Nat) : Nat :=
  let shift := 8 - u8TrailingZeros (thread_count % 256)
  if shift < 8 then u.headD 0 % 256 >>> shift else 0

/-- Mirrors `impl From<HashedSCAddress> for SCAddress`, whose body is
`todo!()`: the conversion unconditionally panics, modelled as `none`. -/
def scAddressFromHashed (_v : List Nat) : Option SCAddress := none

/-- `Address::get_thread`.  The SC branch goes through the panicking
`HashedSCAddress → SCAddress` conversion, so it is partial: `none` models the
panic. -/
def Address.get_thread (a : Address) (thread_count : Nat) : Option Nat :=
  match a with
  | .User u => some (userGetThread u thread_count)
  | .SC v => (scAddressFromHashed v).map SCAddress.thread

/-! ## The execution context and capability interface

`InterfaceImpl` methods are translated from
`massa-execution-worker/src/interface_impl.rs`.  The `ExecutionContext`
methods they call live in `context.rs`, which is not among the visible
sources: those carry a `Modelled from the spec:` note and follow §4.1 of the
spec.  Every interface operation is a function from a context to a result
paired with the successor context, so that mutations surviving an error
(which the Rust code performs through the locked context) stay observable. -/

/-- Execution configuration (the field used by the interface methods). -/
structure ExecutionConfig where
  thread_count : Nat
deriving DecidableEq, Repr

/-- Modelled from the spec: a ledger entry
`{balance, bytecode: byte sequence, datastore}` of the speculative overlay;
`bytecode = none` models an entry whose bytecode is absent. -/
structure LedgerEntry where
  balance : Nat
  bytecode : Option (List Nat)
  datastore : List (List Nat × List Nat)
deriving DecidableEq, Repr

/-- `massa_execution_exports::ExecutionStackElement`, with the exact fields
constructed by `init_call` (`interface_impl.rs` lines 160–165). -/
structure ExecutionStackElement where
  address : Address
  coins : Nat
  owned_addresses : List Address
  operation_datastore : Option (List (List Nat × List Nat))
deriving DecidableEq, Repr

/-- `massa_async_pool::AsyncMessageTrigger`. -/
structure AsyncMessageTrigger where
  address : Address
  datastore_key : Option (List Nat)
deriving DecidableEq, Repr

/-- `massa_async_pool::AsyncMessage`, with the fields passed by `send_message`
to `AsyncMessage::new_with_hash`. -/
structure AsyncMessage where
  emission_slot : Slot
  emission_index : Nat
  sender : Address
  destination : Address
  handler : List Char
  max_gas : Nat
  fee : Nat
  coins : Nat
  validity_start : Slot
  validity_end : Slot
  data : List Nat
  trigger : Option AsyncMessageTrigger
deriving DecidableEq, Repr

/-- Errors raised by the interface operations, one constructor per `bail!` /
error site reached by the modelled methods. -/
inductive InterfaceError
  | addressParse
  | bytecodeNotFound
  | failedReadCallStack
  | transferFailed (inner : InterfaceError)
  | insufficientBalance
  | callStackOutOfBounds
  | emptyCallStack
  | invalidValidityStartThread
  | invalidValidityEndThread
  | datastoreKeyTooLong
deriving DecidableEq, Repr

/-- Modelled from the spec: the mutable state owned by one execution
(`context.rs` `ExecutionContext` is not among the visible sources) — the call
stack, the speculative ledger view, the outgoing async-message queue, the
execution slot and the message-emission counter. -/
structure ExecutionContext where
  slot : Slot
  stack : List ExecutionStackElement
  ledger : List (Address × LedgerEntry)
  outgoing : List AsyncMessage
  created_message_index : Nat
deriving DecidableEq, Repr

/-- Association-list lookup for the ledger view. -/
def ledgerGet : List (Address × LedgerEntry) → Address → Option LedgerEntry
  | [], _ => none
  | (k, v) :: rest, a => if k = a then some v else ledgerGet rest a

/-- Association-list update (insert at the end when absent). -/
def ledgerSet : List (Address × LedgerEntry) → Address → LedgerEntry →
    List (Address × LedgerEntry)
  | [], a, e => [(a, e)]
  | (k, v) :: rest, a, e => if k = a then (k, e) :: rest else (k, v) :: ledgerSet rest a e

/-- Modelled from the spec: `get_balance(addr)` on the speculative view
(`none` when the address is absent; callers default it to zero). -/
def ExecutionContext.get_balance (ctx : ExecutionContext) (addr : Address) : Option Nat :=
  (ledgerGet ctx.ledger addr).map (·.balance)

/-- Modelled from the spec: `get_bytecode(addr) -> bytes?`. -/
def ExecutionContext.get_bytecode (ctx : ExecutionContext) (addr : Address) :
    Option (List Nat) :=
  (ledgerGet ctx.ledger addr).bind (·.bytecode)

/-- Modelled from the spec: `get_current_address()` is the top-of-stack
address; fails with an empty-stack error outside any frame. -/
def ExecutionContext.get_current_address (ctx : ExecutionContext) :
    Except InterfaceError Address :=
  match ctx.stack.getLast? with
  | some fr => .ok fr.address
  | none => .error .emptyCallStack

/-- Replace the balance of `addr`, creating a bare entry when absent. -/
def setBalance (ctx : ExecutionContext) (addr : Address) (b : Nat) : ExecutionContext :=
  let entry :=
    match ledgerGet ctx.ledger addr with
    | some e => { e with balance := b }
    | none => { balance := b, bytecode := none, datastore := [] }
  { ctx with ledger := ledgerSet ctx.ledger addr entry }

/-- Modelled from the spec: `transfer_coins(from?, to?, amount, check_solvency)`
debits `from` when present (failing with insufficient funds when solvency is
checked and the balance is below the amount), credits `to` when present;
atomic — an error applies neither leg. -/
def ExecutionContext.transfer_coins (ctx : ExecutionContext)
    (fromAddr toAddr : Option Address) (amount : Nat) (check_solvency : Bool) :
    Except InterfaceError Unit × ExecutionContext :=
  match fromAddr with
  | some f =>
    let bal := (ctx.get_balance f).getD 0
    if check_solvency && decide (bal < amount) then (.error .insufficientBalance, ctx)
    else
      let ctx1 := setBalance ctx f (bal - amount)
      match toAddr with
      | some t => (.ok (), setBalance ctx1 t ((ctx1.get_balance t).getD 0 + amount))
      | none => (.ok (), ctx1)
  | none =>
    match toAddr with
    | some t => (.ok (), setBalance ctx t ((ctx.get_balance t).getD 0 + amount))
    | none => (.ok (), ctx)

/-- `InterfaceImpl::init_call` (`interface_impl.rs` lines 127–169): parse the
target, fetch its bytecode, read the caller from the top of the stack,
transfer the coins (solvency-checked), and only then push the new frame. -/
def init_call (ctx : ExecutionContext) (address : List Char) (raw_coins : Nat) :
    Except InterfaceError (List Nat) × ExecutionContext :=
  match Address.fromChars address with
  | .error _ => (.error .addressParse, ctx)
  | .ok to_address =>
    match ctx.get_bytecode to_address with
    | none => (.error .bytecodeNotFound, ctx)
    | some bytecode =>
      match ctx.stack.getLast? with
      | none => (.error .failedReadCallStack, ctx)
      | some last =>
        match ctx.transfer_coins (some last.address) (some to_address) raw_coins true with
        | (.error e, ctx') => (.error (.transferFailed e), ctx')
        | (.ok _, ctx') =>
          (.ok bytecode,
            { ctx' with
              stack := ctx'.stack ++
                [{ address := to_address, coins := raw_coins,
                   owned_addresses := [to_address], operation_datastore := none }] })

/-- `InterfaceImpl::finish_call` (lines 173–181): pop the top frame, failing
on an empty stack. -/
def finish_call (ctx : ExecutionContext) : Except InterfaceError Unit × ExecutionContext :=
  match ctx.stack.getLast? with
  | none => (.error .callStackOutOfBounds, ctx)
  | some _ => (.ok (), { ctx with stack := ctx.stack.dropLast })

/-- `InterfaceImpl::caller_has_write_access` (lines 406–420): walk the stack
from the top; the authorising owned-address set is the frame below the top
when it exists, the top frame itself otherwise. -/
def caller_has_write_access (ctx : ExecutionContext) : Except InterfaceError Bool :=
  match ctx.stack.reverse with
  | [] => .error .emptyCallStack
  | last :: rest =>
    let caller_owned_addresses :=
      match rest with
      | prev_to_last :: _ => prev_to_last.owned_addresses
      | [] => last.owned_addresses
    match ctx.get_current_address with
    | .error e => .error e
    | .ok current_address => .ok (decide (current_address ∈ caller_owned_addresses))

/-- Modelled from the spec: the bound on datastore keys
(`massa_models::config::MAX_DATASTORE_KEY_LENGTH`, not among the visible
sources). -/
def MAX_DATASTORE_KEY_LENGTH : Nat := 255

/-- The trigger-building closure inside `send_message` (lines 714–727): when a
datastore key is present its length is checked first, then the filter address
is parsed. -/
def buildTrigger : Option (List Char × Option (List Nat)) →
    Except InterfaceError (Option AsyncMessageTrigger)
  | none => .ok none
  | some (addr, datastore_key) =>
    match datastore_key with
    | some k =>
      if MAX_DATASTORE_KEY_LENGTH < k.length then .error .datastoreKeyTooLong
      else
        match Address.fromChars addr with
        | .error _ => .error .addressParse
        | .ok a => .ok (some { address := a, datastore_key := datastore_key })
    | none =>
      match Address.fromChars addr with
      | .error _ => .error .addressParse
      | .ok a => .ok (some { address := a, datastore_key := none })

/-- `InterfaceImpl::send_message` (lines 676–731), in the order the Rust code
evaluates: validity-thread checks, sender lookup, the two escrow debits, then
the arguments of `AsyncMessage::new_with_hash` (target parse, then the filter
trigger), then enqueue and counter increment. -/
def send_message (cfg : ExecutionConfig) (ctx : ExecutionContext)
    (target_address target_handler : List Char)
    (validity_start validity_end : Nat × Nat)
    (max_gas raw_fee raw_coins : Nat) (data : List Nat)
    (filter : Option (List Char × Option (List Nat))) :
    Except InterfaceError Unit × ExecutionContext :=
  if cfg.thread_count ≤ validity_start.2 then (.error .invalidValidityStartThread, ctx)
  else if cfg.thread_count ≤ validity_end.2 then (.error .invalidValidityEndThread, ctx)
  else
    match ctx.get_current_address with
    | .error e => (.error e, ctx)
    | .ok sender =>
      match ctx.transfer_coins (some sender) none raw_coins true with
      | (.error e, ctx') => (.error e, ctx')
      | (.ok _, ctx1) =>
        match ctx1.transfer_coins (some sender) none raw_fee true with
        | (.error e, ctx') => (.error e, ctx')
        | (.ok _, ctx2) =>
          match Address.fromChars target_address with
          | .error _ => (.error .addressParse, ctx2)
          | .ok destination =>
            match buildTrigger filter with
            | .error e => (.error e, ctx2)
            | .ok trigger =>
              (.ok (),
                { ctx2 with
                  outgoing := ctx2.outgoing ++
                    [{ emission_slot := ctx.slot,
                       emission_index := ctx.created_message_index,
                       sender := sender, destination := destination,
                       handler := target_handler, max_gas := max_gas,
                       fee := raw_fee, coins := raw_coins,
                       validity_start := ⟨validity_start.1, validity_start.2⟩,
                       validity_end := ⟨validity_end.1, validity_end.2⟩,
                       data := data, trigger := trigger }],
                  created_message_index := ctx2.created_message_index + 1 })

/-! ## Supporting lemmas about the context operations -/

theorem ledgerGet_set_self (l : List (Address × LedgerEntry)) (a : Address) (e : LedgerEntry) :
    ledgerGet (ledgerSet l a e) a = some e := by
  induction l with
  | nil => simp [ledgerGet, ledgerSet]
  | cons kv rest ih =>
    obtain ⟨k, v⟩ := kv
    by_cases hk : k = a
    · simp [ledgerGet, ledgerSet, hk]
    · simp [ledgerGet, ledgerSet, hk, ih]

theorem setBalance_fields (ctx : ExecutionContext) (a : Address) (b : Nat) :
    (setBalance ctx a b).slot = ctx.slot ∧
    (setBalance ctx a b).stack = ctx.stack ∧
    (setBalance ctx a b).outgoing = ctx.outgoing ∧
    (setBalance ctx a b).created_message_index = ctx.created_message_index := by
  simp [setBalance]

theorem setBalance_get (ctx : ExecutionContext) (a : Address) (b : Nat) :
    ((setBalance ctx a b).get_balance a).getD 0 = b := by
  simp only [setBalance, ExecutionContext.get_balance, ledgerGet_set_self]
  cases ledgerGet ctx.ledger a <;> simp

/-- `transfer_coins` only touches the ledger: every other context field is
preserved, both on success and on failure. -/
theorem transfer_coins_fields (ctx : ExecutionContext) (fromAddr toAddr : Option Address)
    (amount : Nat) (check : Bool) :
    ((ctx.transfer_coins fromAddr toAddr amount check).2.slot = ctx.slot ∧
     (ctx.transfer_coins fromAddr toAddr amount check).2.stack = ctx.stack) ∧
    (ctx.transfer_coins fromAddr toAddr amount check).2.outgoing = ctx.outgoing ∧
    (ctx.transfer_coins fromAddr toAddr amount check).2.created_message_index =
      ctx.created_message_index := by
  unfold ExecutionContext.transfer_coins
  rcases fromAddr with _ | f <;> rcases toAddr with _ | t <;>
    simp [setBalance] <;> split <;> simp [setBalance]

/-- A failing `transfer_coins` leaves the context untouched (atomicity,
as required by the spec). -/
theorem transfer_coins_error_state (ctx : ExecutionContext) (fromAddr toAddr : Option Address)
    (amount : Nat) (check : Bool) (e : InterfaceError)
    (h : (ctx.transfer_coins fromAddr toAddr amount check).1 = .error e) :
    (ctx.transfer_coins fromAddr toAddr amount check).2 = ctx := by
  unfold ExecutionContext.transfer_coins at h ⊢
  rcases fromAddr with _ | f <;> rcases toAddr with _ | t <;> simp at h ⊢ <;>
    split at h <;> simp_all

/-- A successful solvency-checked debit (no credit leg) subtracts exactly the
amount from the sender's balance. -/
theorem transfer_debit_success (ctx : ExecutionContext) (f : Address) (amt : Nat)
    (ctx' : ExecutionContext)
    (h : ctx.transfer_coins (some f) none amt true = (.ok (), ctx')) :
    amt ≤ (ctx.get_balance f).getD 0 ∧
    (ctx'.get_balance f).getD 0 + amt = (ctx.get_balance f).getD 0 := by
  simp only [ExecutionContext.transfer_coins] at h
  by_cases hb : (ctx.get_balance f).getD 0 < amt
  · rw [if_pos (by simp [hb])] at h
    simp at h
  · rw [if_neg (by simp [hb])] at h
    have h2 : setBalance ctx f ((ctx.get_balance f).getD 0 - amt) = ctx' := by
      have := congrArg Prod.snd h
      simpa using this
    refine ⟨by omega, ?_⟩
    rw [← h2, setBalance_get]
    omega

/-! ## Claim theorems -/

/-- C1: for every call stack, `caller_has_write_access` returns true iff the
current (top-of-stack) address is in the owned-address set of the frame one
below the top, or, for a one-frame stack, of the top frame itself; an empty
stack yields an error. -/
theorem caller_has_write_access_spec (ctx : ExecutionContext) :
    (ctx.stack = [] → caller_has_write_access ctx = .error .emptyCallStack) ∧
    (∀ top, ctx.stack = [top] →
      (caller_has_write_access ctx = .ok true ↔ top.address ∈ top.owned_addresses)) ∧
    (∀ pre below top, ctx.stack = pre ++ [below, top] →
      (caller_has_write_access ctx = .ok true ↔ top.address ∈ below.owned_addresses)) := by
  refine ⟨?_, ?_, ?_⟩
  · intro h
    simp [caller_has_write_access, h]
  · intro top h
    have hrev : ctx.stack.reverse = [top] := by rw [h]; rfl
    have hcur : ctx.get_current_address = .ok top.address := by
      simp [ExecutionContext.get_current_address, h]
    simp [caller_has_write_access, hrev, hcur]
  · intro pre below top h
    have hrev : ctx.stack.reverse = top :: below :: pre.reverse := by
      rw [h]; simp
    have hlast : ctx.stack.getLast? = some top := by
      rw [h, show pre ++ [below, top] = (pre ++ [below]) ++ [top] by simp]
      exact List.getLast?_concat _
    have hcur : ctx.get_current_address = .ok top.address := by
      simp [ExecutionContext.get_current_address, hlast]
    simp [caller_has_write_access, hrev, hcur]

/-- Witness for C1 at a two-frame stack (the below frame owns the top
address) and at the empty stack. -/
theorem caller_has_write_access_spec_witness :
    caller_has_write_access ⟨⟨0, 0⟩, [], [], [], 0⟩ = .error .emptyCallStack ∧
    (caller_has_write_access
        ⟨⟨0, 0⟩,
         [⟨Address.SC [2], 0, [Address.SC [1]], none⟩,
          ⟨Address.SC [1], 0, [Address.SC [1]], none⟩], [], [], 0⟩ = .ok true ↔
      Address.SC [1] ∈ [Address.SC [1]]) :=
  ⟨(caller_has_write_access_spec _).1 rfl,
   (caller_has_write_access_spec _).2.2 [] ⟨Address.SC [2], 0, [Address.SC [1]], none⟩
     ⟨Address.SC [1], 0, [Address.SC [1]], none⟩ rfl⟩

/-- C2: in `init_call` the coin transfer precedes the push of the new frame:
when the transfer fails, `init_call` reports the error and the whole context
(in particular the call stack) is unchanged. -/
theorem init_call_failed_transfer_no_push (ctx : ExecutionContext) (s : List Char)
    (raw_coins : Nat) (to_address : Address) (bytecode : List Nat)
    (last : ExecutionStackElement) (e : InterfaceError)
    (hparse : Address.fromChars s = .ok to_address)
    (hbc : ctx.get_bytecode to_address = some bytecode)
    (hlast : ctx.stack.getLast? = some last)
    (htr : (ctx.transfer_coins (some last.address) (some to_address) raw_coins true).1 =
      .error e) :
    init_call ctx s raw_coins = (.error (.transferFailed e), ctx) := by
  have hstate := transfer_coins_error_state ctx (some last.address) (some to_address)
    raw_coins true e htr
  have hpair : ctx.transfer_coins (some last.address) (some to_address) raw_coins true =
      (.error e, ctx) := by
    rcases hq : ctx.transfer_coins (some last.address) (some to_address) raw_coins true with ⟨r, c⟩
    rw [hq] at htr hstate
    simp only at htr hstate
    rw [htr, hstate]
  simp only [init_call, hparse, hbc, hlast, hpair]

/-- Witness for C2: a caller with balance 10 attempting to move 100. -/
theorem init_call_failed_transfer_no_push_witness :
    ((⟨⟨0, 0⟩, [⟨Address.SC [2], 0, [Address.SC [2]], none⟩],
        [(Address.SC [2], ⟨10, none, []⟩), (Address.SC [1], ⟨0, some [7], []⟩)], [],
        0⟩ : ExecutionContext).transfer_coins
      (some (Address.SC [2])) (some (Address.SC [1])) 100 true).1 =
      .error .insufficientBalance ∧
    init_call
      ⟨⟨0, 0⟩, [⟨Address.SC [2], 0, [Address.SC [2]], none⟩],
       [(Address.SC [2], ⟨10, none, []⟩), (Address.SC [1], ⟨0, some [7], []⟩)], [], 0⟩
      ['A', 'S', '2'] 100 =
      (.error (.transferFailed .insufficientBalance),
       ⟨⟨0, 0⟩, [⟨Address.SC [2], 0, [Address.SC [2]], none⟩],
        [(Address.SC [2], ⟨10, none, []⟩), (Address.SC [1], ⟨0, some [7], []⟩)], [], 0⟩) :=
  ⟨by decide,
   init_call_failed_transfer_no_push _ ['A', 'S', '2'] 100 (Address.SC [1]) [7]
     ⟨Address.SC [2], 0, [Address.SC [2]], none⟩ .insufficientBalance
     (by decide) (by decide) (by decide) (by decide)⟩

/-- C6: the concrete `init_call` scenario — caller balance 150, target has
bytecode, transfer of 100 succeeds, target bytecode is returned, balances
become 50 and 100, the stack depth becomes 2 and the new top frame is
`{address: target, coins: 100, owned: [target], operation_datastore: none}`. -/
theorem init_call_scenario :
    init_call
      ⟨⟨0, 0⟩, [⟨Address.SC [2], 0, [Address.SC [2]], none⟩],
       [(Address.SC [2], ⟨150, none, []⟩), (Address.SC [1], ⟨0, some [9, 9], []⟩)], [], 0⟩
      ['A', 'S', '2'] 100 =
      (.ok [9, 9],
       ⟨⟨0, 0⟩,
        [⟨Address.SC [2], 0, [Address.SC [2]], none⟩,
         ⟨Address.SC [1], 100, [Address.SC [1]], none⟩],
        [(Address.SC [2], ⟨50, none, []⟩), (Address.SC [1], ⟨100, some [9, 9], []⟩)], [],
        0⟩) ∧
    (init_call
      ⟨⟨0, 0⟩, [⟨Address.SC [2], 0, [Address.SC [2]], none⟩],
       [(Address.SC [2], ⟨150, none, []⟩), (Address.SC [1], ⟨0, some [9, 9], []⟩)], [], 0⟩
      ['A', 'S', '2'] 100).2.stack.length = 2 := by
  constructor
  · decide
  · decide

/-! ## Interleaved `init_call` / `finish_call` sequences (stack symmetry) -/

/-- A successful `init_call` pushes exactly one frame. -/
theorem init_call_ok_stack (ctx : ExecutionContext) (s : List Char) (c : Nat)
    (bc : List Nat) (ctx2 : ExecutionContext) (h : init_call ctx s c = (.ok bc, ctx2)) :
    ∃ fr, ctx2.stack = ctx.stack ++ [fr] := by
  rcases hp : Address.fromChars s with _ | to_address
  · simp [init_call, hp] at h
  · rcases hbc : ctx.get_bytecode to_address with _ | bytecode
    · simp [init_call, hp, hbc] at h
    · rcases hl : ctx.stack.getLast? with _ | last
      · simp [init_call, hp, hbc, hl] at h
      · rcases htr : ctx.transfer_coins (some last.address) (some to_address) c true
          with ⟨res, ctxp⟩
        rcases res with e | u
        · simp [init_call, hp, hbc, hl, htr] at h
        · have hst : ctxp.stack = ctx.stack := by
            have hfld := (transfer_coins_fields ctx (some last.address) (some to_address)
              c true).1.2
            rw [htr] at hfld
            exact hfld
          simp only [init_call, hp, hbc, hl, htr, Prod.mk.injEq] at h
          refine ⟨⟨to_address, c, [to_address], none⟩, ?_⟩
          rw [← h.2]
          simp [hst]

/-- A failing `init_call` leaves the stack unchanged. -/
theorem init_call_err_stack (ctx : ExecutionContext) (s : List Char) (c : Nat)
    (e : InterfaceError) (ctx2 : ExecutionContext)
    (h : init_call ctx s c = (.error e, ctx2)) : ctx2.stack = ctx.stack := by
  rcases hp : Address.fromChars s with _ | to_address
  · simp only [init_call, hp, Prod.mk.injEq] at h
    rw [← h.2]
  · rcases hbc : ctx.get_bytecode to_address with _ | bytecode
    · simp only [init_call, hp, hbc, Prod.mk.injEq] at h
      rw [← h.2]
    · rcases hl : ctx.stack.getLast? with _ | last
      · simp only [init_call, hp, hbc, hl, Prod.mk.injEq] at h
        rw [← h.2]
      · rcases htr : ctx.transfer_coins (some last.address) (some to_address) c true
          with ⟨res, ctxp⟩
        rcases res with e' | u
        · have hst : ctxp.stack = ctx.stack := by
            have hfld := (transfer_coins_fields ctx (some last.address) (some to_address)
              c true).1.2
            rw [htr] at hfld
            exact hfld
          simp only [init_call, hp, hbc, hl, htr, Prod.mk.injEq] at h
          rw [← h.2]
          exact hst
        · simp [init_call, hp, hbc, hl, htr] at h

/-- A successful `finish_call` pops exactly one frame; it can only succeed on
a nonempty stack. -/
theorem finish_call_ok_stack (ctx : ExecutionContext) (ctx2 : ExecutionContext)
    (h : finish_call ctx = (.ok (), ctx2)) :
    ctx2.stack = ctx.stack.dropLast ∧ ctx.stack ≠ [] := by
  unfold finish_call at h
  rcases hl : ctx.stack.getLast? with _ | fr <;> rw [hl] at h
  · simp at h
  · simp only [Prod.mk.injEq] at h
    refine ⟨by rw [← h.2], ?_⟩
    intro hc
    rw [hc] at hl
    simp at hl

/-- `finish_call` on an empty stack fails without mutating the context. -/
theorem finish_call_empty (ctx : ExecutionContext) (h : ctx.stack = []) :
    finish_call ctx = (.error .callStackOutOfBounds, ctx) := by
  unfold finish_call
  rw [h]
  rfl

/-- One operation of an interleaved call sequence. -/
inductive CallOp
  | init (address : List Char) (raw_coins : Nat)
  | finish

/-- Run one call operation, discarding the returned bytecode. -/
def applyCallOp (ctx : ExecutionContext) : CallOp → Except InterfaceError Unit × ExecutionContext
  | .init s c =>
    match init_call ctx s c with
    | (.ok _, ctx') => (.ok (), ctx')
    | (.error e, ctx') => (.error e, ctx')
  | .finish => finish_call ctx

/-- Run a sequence of call operations; returns the final context together with
the number of successful `init_call`s and successful `finish_call`s. -/
def runCalls : List CallOp → ExecutionContext → ExecutionContext × Nat × Nat
  | [], ctx => (ctx, 0, 0)
  | op :: rest, ctx =>
    let r := applyCallOp ctx op
    let out := runCalls rest r.2
    match r.1 with
    | .ok _ =>
      match op with
      | .init _ _ => (out.1, out.2.1 + 1, out.2.2)
      | .finish => (out.1, out.2.1, out.2.2 + 1)
    | .error _ => out

/-- C7: over any accepted interleaved sequence, final depth + successful pops
equals initial depth + successful pushes (so matched pairs restore the
starting depth; each successful `init_call` pushes exactly one frame and
each successful `finish_call` pops exactly one), and a `finish_call` on an
empty stack fails without mutating the stack. -/
theorem call_stack_symmetry :
    (∀ ops ctx, (runCalls ops ctx).1.stack.length + (runCalls ops ctx).2.2 =
      ctx.stack.length + (runCalls ops ctx).2.1) ∧
    (∀ ctx : ExecutionContext, ctx.stack = [] →
      finish_call ctx = (.error .callStackOutOfBounds, ctx)) := by
  constructor
  · intro ops
    induction ops with
    | nil => intro ctx; simp [runCalls]
    | cons op rest ih =>
      intro ctx
      rcases hop : op with ⟨s, c⟩ | _
      · rcases hr : init_call ctx s c with ⟨res, ctx2⟩
        rcases res with e | bc
        · have hlen : ctx2.stack.length = ctx.stack.length := by
            rw [init_call_err_stack ctx s c e ctx2 hr]
          have hrun : runCalls (CallOp.init s c :: rest) ctx = runCalls rest ctx2 := by
            simp [runCalls, applyCallOp, hr]
          rw [hrun, ← hlen]
          exact ih ctx2
        · obtain ⟨fr, hfr⟩ := init_call_ok_stack ctx s c bc ctx2 hr
          have hlen : ctx2.stack.length = ctx.stack.length + 1 := by
            rw [hfr]; simp
          have hrun : runCalls (CallOp.init s c :: rest) ctx =
              ((runCalls rest ctx2).1, (runCalls rest ctx2).2.1 + 1,
               (runCalls rest ctx2).2.2) := by
            simp [runCalls, applyCallOp, hr]
          rw [hrun]
          have := ih ctx2
          simp only at this ⊢
          omega
      · rcases hr : finish_call ctx with ⟨res, ctx2⟩
        rcases res with e | u
        · have hctx2 : ctx2 = ctx := by
            unfold finish_call at hr
            rcases hl : ctx.stack.getLast? with _ | fr <;> rw [hl] at hr <;>
              simp only [Prod.mk.injEq] at hr
            · rw [← hr.2]
            · simp at hr
          have hrun : runCalls (CallOp.finish :: rest) ctx = runCalls rest ctx2 := by
            simp [runCalls, applyCallOp, hr]
          rw [hrun, hctx2]
          exact ih ctx
        · obtain ⟨hdrop, hne⟩ := finish_call_ok_stack ctx ctx2 hr
          have hlen : ctx2.stack.length + 1 = ctx.stack.length := by
            rw [hdrop, List.length_dropLast]
            have : 0 < ctx.stack.length := List.length_pos.mpr hne
            omega
          have hrun : runCalls (CallOp.finish :: rest) ctx =
              ((runCalls rest ctx2).1, (runCalls rest ctx2).2.1,
               (runCalls rest ctx2).2.2 + 1) := by
            simp [runCalls, applyCallOp, hr]
          rw [hrun]
          have := ih ctx2
          simp only at this ⊢
          omega
  · intro ctx h
    exact finish_call_empty ctx h

/-- Witness for C7: a concrete matched sequence (push then pop) restores
depth 1, and `finish_call` on the empty context fails unchanged. -/
theorem call_stack_symmetry_witness :
    ((runCalls [CallOp.init ['A', 'S', '2'] 0, CallOp.finish]
        ⟨⟨0, 0⟩, [⟨Address.SC [2], 0, [Address.SC [2]], none⟩],
         [(Address.SC [2], ⟨150, none, []⟩), (Address.SC [1], ⟨0, some [9], []⟩)], [],
         0⟩).1.stack.length +
      (runCalls [CallOp.init ['A', 'S', '2'] 0, CallOp.finish]
        ⟨⟨0, 0⟩, [⟨Address.SC [2], 0, [Address.SC [2]], none⟩],
         [(Address.SC [2], ⟨150, none, []⟩), (Address.SC [1], ⟨0, some [9], []⟩)], [],
         0⟩).2.2 =
      1 + (runCalls [CallOp.init ['A', 'S', '2'] 0, CallOp.finish]
        ⟨⟨0, 0⟩, [⟨Address.SC [2], 0, [Address.SC [2]], none⟩],
         [(Address.SC [2], ⟨150, none, []⟩), (Address.SC [1], ⟨0, some [9], []⟩)], [],
         0⟩).2.1) ∧
    finish_call ⟨⟨0, 0⟩, [], [], [], 0⟩ = (.error .callStackOutOfBounds, ⟨⟨0, 0⟩, [], [], [], 0⟩) :=
  ⟨call_stack_symmetry.1 [CallOp.init ['A', 'S', '2'] 0, CallOp.finish] _,
   call_stack_symmetry.2 _ rfl⟩

/-! ## Message emission ordering -/

theorem getLast?_mem_of_eq {α : Type} (l : List α) (x : α) (h : l.getLast? = some x) :
    x ∈ l := by
  rcases l with _ | ⟨a, as⟩
  · simp at h
  · have hne : (a :: as) ≠ [] := by simp
    rw [List.getLast?_eq_getLast _ hne] at h
    have hmem := List.getLast_mem hne
    injection h with h'
    exact h' ▸ hmem

/-- A successful `send_message` appends exactly one message, stamped with the
context slot and the current counter, and increments the counter. -/
theorem send_message_ok_shape (cfg : ExecutionConfig) (ctx : ExecutionContext)
    (ta th : List Char) (vs ve : Nat × Nat) (g fee coins : Nat) (data : List Nat)
    (filt : Option (List Char × Option (List Nat))) (ctx' : ExecutionContext)
    (h : send_message cfg ctx ta th vs ve g fee coins data filt = (.ok (), ctx')) :
    ∃ m, ctx'.outgoing = ctx.outgoing ++ [m] ∧ m.emission_slot = ctx.slot ∧
      m.emission_index = ctx.created_message_index ∧
      ctx'.created_message_index = ctx.created_message_index + 1 ∧
      ctx'.slot = ctx.slot := by
  by_cases h1 : cfg.thread_count ≤ vs.2
  · simp [send_message, h1] at h
  · by_cases h2 : cfg.thread_count ≤ ve.2
    · simp [send_message, h1, h2] at h
    · rcases hc : ctx.get_current_address with e | sender
      · simp [send_message, h1, h2, hc] at h
      · rcases ht1 : ctx.transfer_coins (some sender) none coins true with ⟨r1, ctx1⟩
        rcases r1 with e | u1
        · simp [send_message, h1, h2, hc, ht1] at h
        · rcases ht2 : ctx1.transfer_coins (some sender) none fee true with ⟨r2, ctx2⟩
          rcases r2 with e | u2
          · simp [send_message, h1, h2, hc, ht1, ht2] at h
          · rcases hta : Address.fromChars ta with e | destination
            · simp [send_message, h1, h2, hc, ht1, ht2, hta] at h
            · rcases htr : buildTrigger filt with e | trigger
              · simp [send_message, h1, h2, hc, ht1, ht2, hta, htr] at h
              · have hf1 := transfer_coins_fields ctx (some sender) none coins true
                have hf2 := transfer_coins_fields ctx1 (some sender) none fee true
                rw [ht1] at hf1
                rw [ht2] at hf2
                dsimp only at hf1 hf2
                simp only [send_message, if_neg h1, if_neg h2, hc, ht1, ht2, hta, htr,
                  Prod.mk.injEq] at h
                refine ⟨{ emission_slot := ctx.slot,
                          emission_index := ctx.created_message_index,
                          sender := sender, destination := destination, handler := th,
                          max_gas := g, fee := fee, coins := coins,
                          validity_start := ⟨vs.1, vs.2⟩, validity_end := ⟨ve.1, ve.2⟩,
                          data := data, trigger := trigger }, ?_, rfl, rfl, ?_, ?_⟩
                · rw [← h.2]
                  simp [hf2.2.1, hf1.2.1]
                · rw [← h.2]
                  simp [hf2.2.2, hf1.2.2]
                · rw [← h.2]
                  simp [hf2.1.1, hf1.1.1]

/-- A failing `send_message` leaves the queue, the counter and the slot
unchanged (the balance may already have been debited). -/
theorem send_message_err_shape (cfg : ExecutionConfig) (ctx : ExecutionContext)
    (ta th : List Char) (vs ve : Nat × Nat) (g fee coins : Nat) (data : List Nat)
    (filt : Option (List Char × Option (List Nat))) (e : InterfaceError)
    (ctx' : ExecutionContext)
    (h : send_message cfg ctx ta th vs ve g fee coins data filt = (.error e, ctx')) :
    ctx'.outgoing = ctx.outgoing ∧
    ctx'.created_message_index = ctx.created_message_index ∧
    ctx'.slot = ctx.slot := by
  by_cases h1 : cfg.thread_count ≤ vs.2
  · simp only [send_message, if_pos h1, Prod.mk.injEq] at h
    rw [← h.2]
    exact ⟨rfl, rfl, rfl⟩
  · by_cases h2 : cfg.thread_count ≤ ve.2
    · simp only [send_message, if_neg h1, if_pos h2, Prod.mk.injEq] at h
      rw [← h.2]
      exact ⟨rfl, rfl, rfl⟩
    · rcases hc : ctx.get_current_address with e' | sender
      · simp only [send_message, if_neg h1, if_neg h2, hc, Prod.mk.injEq] at h
        rw [← h.2]
        exact ⟨rfl, rfl, rfl⟩
      · rcases ht1 : ctx.transfer_coins (some sender) none coins true with ⟨r1, ctx1⟩
        have hf1 := transfer_coins_fields ctx (some sender) none coins true
        rw [ht1] at hf1
        dsimp only at hf1
        rcases r1 with e' | u1
        · simp only [send_message, if_neg h1, if_neg h2, hc, ht1, Prod.mk.injEq] at h
          rw [← h.2]
          exact ⟨hf1.2.1, hf1.2.2, hf1.1.1⟩
        · rcases ht2 : ctx1.transfer_coins (some sender) none fee true with ⟨r2, ctx2⟩
          have hf2 := transfer_coins_fields ctx1 (some sender) none fee true
          rw [ht2] at hf2
          dsimp only at hf2
          have hcomp : ctx2.outgoing = ctx.outgoing ∧
              ctx2.created_message_index = ctx.created_message_index ∧
              ctx2.slot = ctx.slot := by
            refine ⟨?_, ?_, ?_⟩
            · rw [hf2.2.1, hf1.2.1]
            · rw [hf2.2.2, hf1.2.2]
            · rw [hf2.1.1, hf1.1.1]
          rcases r2 with e' | u2
          · simp only [send_message, if_neg h1, if_neg h2, hc, ht1, ht2,
              Prod.mk.injEq] at h
            rw [← h.2]
            exact hcomp
          · rcases hta : Address.fromChars ta with e' | destination
            · simp only [send_message, if_neg h1, if_neg h2, hc, ht1, ht2, hta,
                Prod.mk.injEq] at h
              rw [← h.2]
              exact hcomp
            · rcases htr : buildTrigger filt with e' | trigger
              · simp only [send_message, if_neg h1, if_neg h2, hc, ht1, ht2, hta, htr,
                  Prod.mk.injEq] at h
                rw [← h.2]
                exact hcomp
              · simp [send_message, if_neg h1, if_neg h2, hc, ht1, ht2, hta, htr] at h

/-- Ordering key of an async message. -/
def msgKey (m : AsyncMessage) : Slot × Nat := (m.emission_slot, m.emission_index)

/-- Strict lexicographic order on `(emission_slot, emission_index)` keys with
slots ordered by (period, thread). -/
def keyLt (x y : Slot × Nat) : Prop :=
  x.1.period < y.1.period ∨ (x.1.period = y.1.period ∧ x.1.thread < y.1.thread) ∨
    (x.1 = y.1 ∧ x.2 < y.2)

/-- The arguments of one `send_message` call. -/
structure SendArgs where
  target_address : List Char
  target_handler : List Char
  validity_start : Nat × Nat
  validity_end : Nat × Nat
  max_gas : Nat
  raw_fee : Nat
  raw_coins : Nat
  data : List Nat
  filter : Option (List Char × Option (List Nat))

/-- State reached after one `send_message` call (success or failure). -/
def applySend (cfg : ExecutionConfig) (ctx : ExecutionContext) (a : SendArgs) :
    ExecutionContext :=
  (send_message cfg ctx a.target_address a.target_handler a.validity_start a.validity_end
    a.max_gas a.raw_fee a.raw_coins a.data a.filter).2

/-- Run a sequence of `send_message` calls. -/
def runSends (cfg : ExecutionConfig) : List SendArgs → ExecutionContext → ExecutionContext
  | [], ctx => ctx
  | a :: rest, ctx => runSends cfg rest (applySend cfg ctx a)

/-- Queue invariant: keys in the outgoing queue are strictly increasing, and
every queued message was stamped with the context slot and an index below the
current counter. -/
def msgsInv (ctx : ExecutionContext) : Prop :=
  List.Chain' keyLt (ctx.outgoing.map msgKey) ∧
  ∀ m ∈ ctx.outgoing, m.emission_slot = ctx.slot ∧
    m.emission_index < ctx.created_message_index

theorem applySend_preserves_inv (cfg : ExecutionConfig) (ctx : ExecutionContext)
    (a : SendArgs) (h : msgsInv ctx) : msgsInv (applySend cfg ctx a) := by
  rcases hr : send_message cfg ctx a.target_address a.target_handler a.validity_start
    a.validity_end a.max_gas a.raw_fee a.raw_coins a.data a.filter with ⟨res, ctx'⟩
  have happ : applySend cfg ctx a = ctx' := by
    simp [applySend, hr]
  rw [happ]
  rcases res with e | u
  · obtain ⟨ho, hi, hs⟩ := send_message_err_shape cfg ctx _ _ _ _ _ _ _ _ _ e ctx' hr
    exact ⟨by rw [ho]; exact h.1,
      fun m hm => by
        have := h.2 m (ho ▸ hm)
        rw [hi, hs]
        exact this⟩
  · cases u
    obtain ⟨m, ho, hslot, hidx, hinc, hs⟩ := send_message_ok_shape cfg ctx _ _ _ _ _ _ _ _ _
      ctx' hr
    constructor
    · rw [ho, List.map_append]
      rw [List.chain'_append]
      refine ⟨h.1, by simp, ?_⟩
      intro x hx y hy
      simp only [List.map_cons, List.map_nil, List.head?_cons, Option.mem_def,
        Option.some.injEq] at hy
      subst hy
      rcases hlast : (ctx.outgoing.map msgKey).getLast? with _ | k
      · rw [hlast] at hx; simp at hx
      · rw [hlast] at hx
        have hxk : x = k := by
          simpa [Option.mem_def, eq_comm] using hx
        subst hxk
        have hmem : x ∈ ctx.outgoing.map msgKey := getLast?_mem_of_eq _ x hlast
        obtain ⟨mm, hmm, hkm⟩ := List.mem_map.mp hmem
        obtain ⟨hms, hmi⟩ := h.2 mm hmm
        rw [← hkm]
        right; right
        constructor
        · simp [msgKey, hms, hslot]
        · simp [msgKey, hmi, hidx]
    · intro m' hm'
      rw [ho] at hm'
      rcases List.mem_append.mp hm' with hmem | hmem
      · obtain ⟨hms, hmi⟩ := h.2 m' hmem
        exact ⟨by rw [hs, hms], by rw [hinc]; omega⟩
      · simp only [List.mem_singleton] at hmem
        subst hmem
        exact ⟨by rw [hs, hslot], by rw [hinc, hidx]; omega⟩

theorem runSends_preserves_inv (cfg : ExecutionConfig) :
    ∀ (args : List SendArgs) (ctx : ExecutionContext),
      msgsInv ctx → msgsInv (runSends cfg args ctx) := by
  intro args
  induction args with
  | nil => intro ctx h; exact h
  | cons a rest ih =>
    intro ctx h
    exact ih _ (applySend_preserves_inv cfg ctx a h)

/-- C3: each successful `send_message` stamps the new message with the current
slot and counter and then increments the counter, so over any sequence of
calls within one context starting from an empty queue the
`(emission_slot, emission_index)` keys are strictly increasing in creation
order. -/
theorem send_message_ordering :
    (∀ (cfg : ExecutionConfig) (ctx : ExecutionContext) (ta th : List Char)
      (vs ve : Nat × Nat) (g fee coins : Nat) (data : List Nat)
      (filt : Option (List Char × Option (List Nat))) (ctx' : ExecutionContext),
      send_message cfg ctx ta th vs ve g fee coins data filt = (.ok (), ctx') →
      ∃ m, ctx'.outgoing = ctx.outgoing ++ [m] ∧ m.emission_slot = ctx.slot ∧
        m.emission_index = ctx.created_message_index ∧
        ctx'.created_message_index = ctx.created_message_index + 1) ∧
    (∀ (cfg : ExecutionConfig) (args : List SendArgs) (ctx0 : ExecutionContext),
      ctx0.outgoing = [] →
      List.Chain' keyLt ((runSends cfg args ctx0).outgoing.map msgKey)) := by
  constructor
  · intro cfg ctx ta th vs ve g fee coins data filt ctx' h
    obtain ⟨m, ho, hs, hi, hinc, _⟩ := send_message_ok_shape cfg ctx ta th vs ve g fee
      coins data filt ctx' h
    exact ⟨m, ho, hs, hi, hinc⟩
  · intro cfg args ctx0 h0
    have hinv : msgsInv ctx0 := by
      constructor
      · rw [h0]; simp
      · intro m hm; rw [h0] at hm; simp at hm
    exact (runSends_preserves_inv cfg args ctx0 hinv).1

/-- Witness for C3: two sends from one context produce strictly increasing
keys, and a single successful send has the stamped shape. -/
theorem send_message_ordering_witness :
    (⟨⟨0, 0⟩, [⟨Address.SC [2], 0, [Address.SC [2]], none⟩],
      [(Address.SC [2], ⟨100, none, []⟩)], [], 0⟩ : ExecutionContext).outgoing = [] ∧
    List.Chain' keyLt
      ((runSends ⟨32⟩
        [⟨['A', 'S', '2'], [], (0, 0), (0, 0), 0, 1, 2, [], none⟩,
         ⟨['A', 'S', '2'], [], (0, 0), (0, 0), 0, 1, 2, [], none⟩]
        ⟨⟨0, 0⟩, [⟨Address.SC [2], 0, [Address.SC [2]], none⟩],
         [(Address.SC [2], ⟨100, none, []⟩)], [], 0⟩).outgoing.map msgKey) :=
  ⟨rfl,
   send_message_ordering.2 ⟨32⟩
     [⟨['A', 'S', '2'], [], (0, 0), (0, 0), 0, 1, 2, [], none⟩,
      ⟨['A', 'S', '2'], [], (0, 0), (0, 0), 0, 1, 2, [], none⟩]
     ⟨⟨0, 0⟩, [⟨Address.SC [2], 0, [Address.SC [2]], none⟩],
      [(Address.SC [2], ⟨100, none, []⟩)], [], 0⟩ rfl⟩

/-- C4: a validity-window thread at or above `thread_count` makes
`send_message` fail with the corresponding invalid-validity error before any
context access: no balance change and no message enqueued (the context is
returned untouched). -/
theorem send_message_invalid_validity (cfg : ExecutionConfig) (ctx : ExecutionContext)
    (ta th : List Char) (vs ve : Nat × Nat) (g fee coins : Nat) (data : List Nat)
    (filt : Option (List Char × Option (List Nat)))
    (h : cfg.thread_count ≤ vs.2 ∨ cfg.thread_count ≤ ve.2) :
    send_message cfg ctx ta th vs ve g fee coins data filt =
      (.error .invalidValidityStartThread, ctx) ∨
    send_message cfg ctx ta th vs ve g fee coins data filt =
      (.error .invalidValidityEndThread, ctx) := by
  by_cases h1 : cfg.thread_count ≤ vs.2
  · left
    simp [send_message, h1]
  · right
    have h2 : cfg.thread_count ≤ ve.2 := h.resolve_left h1
    simp [send_message, h1, h2]

/-- Witness for C4: `validity_start.thread = thread_count = 32`. -/
theorem send_message_invalid_validity_witness :
    ((32 : Nat) ≤ 32 ∨ (32 : Nat) ≤ 0) ∧
    (send_message ⟨32⟩
        ⟨⟨0, 0⟩, [⟨Address.SC [2], 0, [Address.SC [2]], none⟩],
         [(Address.SC [2], ⟨100, none, []⟩)], [], 0⟩
        ['A', 'S', '2'] [] (0, 32) (0, 0) 0 1 2 [] none =
      (.error .invalidValidityStartThread,
       ⟨⟨0, 0⟩, [⟨Address.SC [2], 0, [Address.SC [2]], none⟩],
        [(Address.SC [2], ⟨100, none, []⟩)], [], 0⟩) ∨
     send_message ⟨32⟩
        ⟨⟨0, 0⟩, [⟨Address.SC [2], 0, [Address.SC [2]], none⟩],
         [(Address.SC [2], ⟨100, none, []⟩)], [], 0⟩
        ['A', 'S', '2'] [] (0, 32) (0, 0) 0 1 2 [] none =
      (.error .invalidValidityEndThread,
       ⟨⟨0, 0⟩, [⟨Address.SC [2], 0, [Address.SC [2]], none⟩],
        [(Address.SC [2], ⟨100, none, []⟩)], [], 0⟩)) :=
  ⟨Or.inl (by decide),
   send_message_invalid_validity ⟨32⟩
     ⟨⟨0, 0⟩, [⟨Address.SC [2], 0, [Address.SC [2]], none⟩],
      [(Address.SC [2], ⟨100, none, []⟩)], [], 0⟩
     ['A', 'S', '2'] [] (0, 32) (0, 0) 0 1 2 [] none (Or.inl (by decide))⟩

/-- C5: an oversized filter datastore key makes `send_message` fail after the
two escrow debits have been applied: the call errors, no message is enqueued
and the counter is unchanged, but the sender balance is already down by
`coins + fee` (the debits are not rolled back). -/
theorem send_message_key_too_long (cfg : ExecutionConfig) (ctx : ExecutionContext)
    (ta th : List Char) (vs ve : Nat × Nat) (g fee coins : Nat) (data : List Nat)
    (faddr : List Char) (key : List Nat) (fr : ExecutionStackElement)
    (ctx1 ctx2 : ExecutionContext)
    (hvs : vs.2 < cfg.thread_count) (hve : ve.2 < cfg.thread_count)
    (hlast : ctx.stack.getLast? = some fr)
    (ht1 : ctx.transfer_coins (some fr.address) none coins true = (.ok (), ctx1))
    (ht2 : ctx1.transfer_coins (some fr.address) none fee true = (.ok (), ctx2))
    (hkey : MAX_DATASTORE_KEY_LENGTH < key.length) :
    (∃ e, send_message cfg ctx ta th vs ve g fee coins data (some (faddr, some key)) =
      (.error e, ctx2)) ∧
    ctx2.outgoing = ctx.outgoing ∧
    ctx2.created_message_index = ctx.created_message_index ∧
    (ctx2.get_balance fr.address).getD 0 + coins + fee =
      (ctx.get_balance fr.address).getD 0 := by
  have hc : ctx.get_current_address = .ok fr.address := by
    simp [ExecutionContext.get_current_address, hlast]
  have h1 : ¬cfg.thread_count ≤ vs.2 := by omega
  have h2 : ¬cfg.thread_count ≤ ve.2 := by omega
  have htrig : buildTrigger (some (faddr, some key)) = .error .datastoreKeyTooLong := by
    simp [buildTrigger, hkey]
  have hf1 := transfer_coins_fields ctx (some fr.address) none coins true
  rw [ht1] at hf1
  dsimp only at hf1
  have hf2 := transfer_coins_fields ctx1 (some fr.address) none fee true
  rw [ht2] at hf2
  dsimp only at hf2
  have hd1 := transfer_debit_success ctx fr.address coins ctx1 ht1
  have hd2 := transfer_debit_success ctx1 fr.address fee ctx2 ht2
  refine ⟨?_, ?_, ?_, ?_⟩
  · rcases hta : Address.fromChars ta with e | dst
    · exact ⟨.addressParse,
        by simp only [send_message, if_neg h1, if_neg h2, hc, ht1, ht2, hta]⟩
    · exact ⟨.datastoreKeyTooLong,
        by simp only [send_message, if_neg h1, if_neg h2, hc, ht1, ht2, hta, htrig]⟩
  · rw [hf2.2.1, hf1.2.1]
  · rw [hf2.2.2, hf1.2.2]
  · omega

/-- Witness for C5: sender balance 100, coins 2, fee 1, a 256-byte key; the
two debits leave balance 97 while the call errors with no message. -/
theorem send_message_key_too_long_witness :
    MAX_DATASTORE_KEY_LENGTH < (List.replicate 256 (0 : Nat)).length ∧
    ((∃ e, send_message ⟨32⟩
        ⟨⟨0, 0⟩, [⟨Address.SC [2], 0, [Address.SC [2]], none⟩],
         [(Address.SC [2], ⟨100, none, []⟩)], [], 0⟩
        ['A', 'S', '2'] [] (0, 0) (0, 0) 0 1 2 []
        (some (['A', 'S', '2'], some (List.replicate 256 0))) =
      (.error e,
       ⟨⟨0, 0⟩, [⟨Address.SC [2], 0, [Address.SC [2]], none⟩],
        [(Address.SC [2], ⟨97, none, []⟩)], [], 0⟩)) ∧
     (⟨⟨0, 0⟩, [⟨Address.SC [2], 0, [Address.SC [2]], none⟩],
       [(Address.SC [2], ⟨97, none, []⟩)], [], 0⟩ : ExecutionContext).outgoing =
       (⟨⟨0, 0⟩, [⟨Address.SC [2], 0, [Address.SC [2]], none⟩],
        [(Address.SC [2], ⟨100, none, []⟩)], [], 0⟩ : ExecutionContext).outgoing ∧
     (⟨⟨0, 0⟩, [⟨Address.SC [2], 0, [Address.SC [2]], none⟩],
       [(Address.SC [2], ⟨97, none, []⟩)], [], 0⟩ :
         ExecutionContext).created_message_index =
       (⟨⟨0, 0⟩, [⟨Address.SC [2], 0, [Address.SC [2]], none⟩],
        [(Address.SC [2], ⟨100, none, []⟩)], [], 0⟩ :
          ExecutionContext).created_message_index ∧
     ((⟨⟨0, 0⟩, [⟨Address.SC [2], 0, [Address.SC [2]], none⟩],
        [(Address.SC [2], ⟨97, none, []⟩)], [], 0⟩ : ExecutionContext).get_balance
          (Address.SC [2])).getD 0 + 2 + 1 =
       ((⟨⟨0, 0⟩, [⟨Address.SC [2], 0, [Address.SC [2]], none⟩],
         [(Address.SC [2], ⟨100, none, []⟩)], [], 0⟩ : ExecutionContext).get_balance
           (Address.SC [2])).getD 0) :=
  ⟨by decide,
   send_message_key_too_long ⟨32⟩
     ⟨⟨0, 0⟩, [⟨Address.SC [2], 0, [Address.SC [2]], none⟩],
      [(Address.SC [2], ⟨100, none, []⟩)], [], 0⟩
     ['A', 'S', '2'] [] (0, 0) (0, 0) 0 1 2 [] ['A', 'S', '2']
     (List.replicate 256 0) ⟨Address.SC [2], 0, [Address.SC [2]], none⟩
     ⟨⟨0, 0⟩, [⟨Address.SC [2], 0, [Address.SC [2]], none⟩],
      [(Address.SC [2], ⟨98, none, []⟩)], [], 0⟩
     ⟨⟨0, 0⟩, [⟨Address.SC [2], 0, [Address.SC [2]], none⟩],
      [(Address.SC [2], ⟨97, none, []⟩)], [], 0⟩
     (by decide) (by decide) (by decide) (by decide) (by decide) (by decide)⟩

/-! ## Address string form: round trip, spec form, thread derivation -/

/-- Witness for C8: a concrete user address (32 bytes) and a concrete SC
address both survive the format/parse round trip. -/
theorem address_parse_format_witness :
    (Address.User (List.range 32)).wellFormedB = true ∧
    Address.fromChars (Address.User (List.range 32)).toChars =
      .ok (Address.User (List.range 32)) ∧
    (Address.SC [0, 1, 3, 1]).wellFormedB = true ∧
    Address.fromChars (Address.SC [0, 1, 3, 1]).toChars = .ok (Address.SC [0, 1, 3, 1]) :=
  ⟨by decide, address_parse_format _ (by decide), by decide,
   address_parse_format _ (by decide)⟩

/-- The address string form as the spec words it: `"A" + {"U"|"S"} +
base58-check(payload)` for both kinds. -/
def specAddressString : Address → List Char
  | .User u => 'A' :: 'U' :: b58CheckEncode (varIntEncode USER_ADDRESS_VERSION ++ u)
  | .SC v => 'A' :: 'S' :: b58CheckEncode v

/-- The amended string form: the SC payload is plain base58 without a
checksum. -/
def specAddressStringAmended : Address → List Char
  | .User u => 'A' :: 'U' :: b58CheckEncode (varIntEncode USER_ADDRESS_VERSION ++ u)
  | .SC v => 'A' :: 'S' :: b58Encode v

/-- True when a string does not start with `"AU"` or `"AS"`. -/
def notAddressPrefixed : List Char → Bool
  | c :: p :: _ => !(decide (c = 'A') && (decide (p = 'U') || decide (p = 'S')))
  | _ => true

/-- C9 counterexample: the SC address stored as bytes `[0,1,3,1]` formats as
`"AS1LiC"` (plain base58), not as the base58-check form the spec claims. -/
theorem sc_address_not_base58check :
    Address.toChars (Address.SC [0, 1, 3, 1]) ≠
      specAddressString (Address.SC [0, 1, 3, 1]) := by
  decide

/-- C9 (amended): the string form of every address is `'A'`, then `'U'`/`'S'`,
then the payload — base58-check for user payloads but plain base58 (no
checksum) for SC payloads — and parsing rejects any string not starting with
one of the two prefixes with `AddressParseError`. -/
theorem address_string_form :
    (∀ a : Address, Address.toChars a = specAddressStringAmended a) ∧
    (∀ s : List Char, notAddressPrefixed s = true →
      Address.fromChars s = .error .AddressParseError) := by
  constructor
  · intro a
    cases a <;> rfl
  · intro s h
    rcases s with _ | ⟨c, _ | ⟨p, data⟩⟩
    · rfl
    · rfl
    · by_cases hc : c = 'A'
      · by_cases hu : p = 'U'
        · exfalso
          subst hc; subst hu
          simp [notAddressPrefixed] at h
        · by_cases hs : p = 'S'
          · exfalso
            subst hc; subst hs
            simp [notAddressPrefixed] at h
          · simp [Address.fromChars, hc, hu, hs]
      · simp [Address.fromChars, hc]

/-- Witness for C9: the SC form at a concrete address, and rejection of a
string with a foreign prefix. -/
theorem address_string_form_witness :
    Address.toChars (Address.SC [1]) = specAddressStringAmended (Address.SC [1]) ∧
    notAddressPrefixed ['X', 'Y'] = true ∧
    Address.fromChars ['X', 'Y'] = .error .AddressParseError :=
  ⟨address_string_form.1 (Address.SC [1]), by decide,
   address_string_form.2 ['X', 'Y'] (by decide)⟩

/-- C10: `Address::get_thread` on an SC address goes through the
`todo!()`-panicking `HashedSCAddress → SCAddress` conversion, so it never
returns a thread (modelled as `none`); user addresses have the defined
derivation from the first hash byte. -/
theorem get_thread_sc_diverges :
    (∀ (v : List Nat) (tc : Nat), Address.get_thread (.SC v) tc = none) ∧
    (∀ (u : List Nat) (tc : Nat),
      Address.get_thread (.User u) tc = some (userGetThread u tc)) :=
  ⟨fun _ _ => rfl, fun _ _ => rfl⟩
